import Mathlib

/-!
Verification development for the generational layout engine of the
family-tree application (frontend `FamilyTreeView.tsx`).

The engine is the function `buildTreeLayout` together with its helpers
`relDeltaFromRoot`, `pickOldest` and the per-row ordering code.  All of it
is shallowly embedded below:

* JavaScript strings are Lean `String`s; the JS `<` comparison on strings
  is the lexicographic `String` order of Lean (they agree on ASCII data).
* The JS regular expressions of `relDeltaFromRoot` are embedded as small
  explicit scanners over the character list (substring patterns with an
  optional `[-\s]?` separator, and `\b`-delimited word alternatives).
* `new Date(d).getFullYear()` is embedded for ISO-style date strings as
  the numeric value of the leading digit run of the string, `none` when
  the string does not start with a digit.
* JS `Map` objects are embedded as association lists kept in insertion
  order (`Map.entries` iterates in insertion order, which the layout code
  relies on); `new Map(pairs)` lookup keeps the last binding of a key.
* `Array.prototype.sort`, which is guaranteed stable, is embedded as a
  stable insertion sort; `localeCompare` is embedded as the `String`
  order (the concrete inputs below only compare plain lowercase ASCII
  tokens, where the two agree).
* The `while (q.length)` worklist loop of the generation assigner is
  embedded as a fuel-indexed structural recursion; `bfsFuel_stable`
  proves that the fuel passed by `buildTreeLayout` is past the fixpoint,
  so the embedded function computes the limit of the source loop.
-/

namespace FamilyTree

/-- Member record: the fields of the `FamilyMember` interface that the
layout engine reads (`_id`, `name`, `dateOfBirth`, `relationship`,
`fatherId`, `motherId`, `spouseIds`, `childrenIds`). -/
structure Member where
  id : String
  name : String
  relationship : String
  dateOfBirth : Option String := none
  fatherId : Option String := none
  motherId : Option String := none
  spouseIds : List String := []
  childrenIds : List String := []
deriving Repr, DecidableEq, Inhabited

/-- Edge: ordered pair `[from, to]`. -/
abbrev Edge := String × String

/-- Layout Result: the record returned by `buildTreeLayout`
(`levels`, `pEdges`, `sEdges`). -/
structure Layout where
  levels : List (List String)
  pEdges : List Edge
  sEdges : List Edge
deriving Repr, DecidableEq

/-- ASCII lowercasing of a string, as `toLowerCase()` acts on the ASCII
labels used by the engine. -/
def lowStr (s : String) : String :=
  String.mk (s.data.map Char.toLower)

/-- Lexicographic comparison of character lists, the order JS `<` uses
on strings (code-unit order, which agrees with code points on the data
here). -/
def charListLt : List Char → List Char → Bool
  | [], [] => false
  | [], _ :: _ => true
  | _ :: _, [] => false
  | c :: cs, d :: ds => if c < d then true else if d < c then false else charListLt cs ds

/-- JS string `<`. -/
def strLt (a b : String) : Bool :=
  charListLt a.data b.data

/-- JS string `≤` (`localeCompare ≤ 0` on the plain ASCII tokens
compared here). -/
def strLe (a b : String) : Bool :=
  !(strLt b a)

/-- Numeric value of the leading digit run of a string. -/
def leadingDigits (s : String) : Option Int :=
  let ds := s.toList.takeWhile Char.isDigit
  if ds.isEmpty then none
  else some (Int.ofNat (ds.foldl (fun a c => a * 10 + (c.toNat - 48)) 0))

/-- Embedding of `year`: `new Date(d).getFullYear()` for an optional ISO
date string, read as the leading year digits; `none` when absent or not
starting with a digit. -/
def year (d : Option String) : Option Int :=
  d.bind leadingDigits

/-- Separator characters admitted by the `[-\s]?` parts of the
relationship regular expressions. -/
def isSepChar (c : Char) : Bool :=
  c = '-' || c.isWhitespace

/-- Word characters of the JS `\w` class (ASCII letters, digits, `_`). -/
def isWordChar (c : Char) : Bool :=
  c.isAlphanum || c = '_'

/-- Consume the literal `cs` from the front of `l`, returning the rest. -/
def eatLit : List Char → List Char → Option (List Char)
  | [], rest => some rest
  | _ :: _, [] => none
  | c :: cs, d :: ds => if d = c then eatLit cs ds else none

/-- Does one of the literal alternatives occur at the front of `l`
(rest of the string unconstrained)? -/
def anyLitHere (alts : List String) (l : List Char) : Bool :=
  alts.any fun s => (eatLit s.toList l).isSome

/-- Match an optional single separator (`[-\s]?`) and then continue
with `k`. -/
def optSepThen (k : List Char → Bool) (l : List Char) : Bool :=
  match l with
  | [] => k []
  | c :: cs => (isSepChar c && k cs) || k (c :: cs)

/-- Match the literal `s` and then continue with `k`. -/
def litThen (s : String) (k : List Char → Bool) (l : List Char) : Bool :=
  match eatLit s.toList l with
  | some rest => k rest
  | none => false

/-- Pattern `great[-\s]?great[-\s]?grand(parent|father|mother)` at the
current position. -/
def patGGGrandAnc (l : List Char) : Bool :=
  litThen "great" (optSepThen (litThen "great" (optSepThen
    (litThen "grand" (anyLitHere ["parent", "father", "mother"]))))) l

/-- Pattern `great[-\s]?grand(parent|father|mother)` at the current
position. -/
def patGGrandAnc (l : List Char) : Bool :=
  litThen "great" (optSepThen
    (litThen "grand" (anyLitHere ["parent", "father", "mother"]))) l

/-- Pattern `grand(parent|father|mother)` at the current position. -/
def patGrandAnc (l : List Char) : Bool :=
  litThen "grand" (anyLitHere ["parent", "father", "mother"]) l

/-- Pattern `grand(son|daughter|child)` at the current position. -/
def patGrandDesc (l : List Char) : Bool :=
  litThen "grand" (anyLitHere ["son", "daughter", "child"]) l

/-- Pattern `great[-\s]?grand(son|daughter|child)` at the current
position. -/
def patGGrandDesc (l : List Char) : Bool :=
  litThen "great" (optSepThen
    (litThen "grand" (anyLitHere ["son", "daughter", "child"]))) l

/-- Does the pattern `p` match at some position of the character list? -/
def scanSub (p : List Char → Bool) : List Char → Bool
  | [] => p []
  | c :: cs => p (c :: cs) || scanSub p cs

/-- Substring regex test: the pattern matches somewhere in `s`. -/
def containsSub (p : List Char → Bool) (s : String) : Bool :=
  scanSub p s.toList

/-- Does one of the word alternatives start here with `\b` on both
sides (previous character absent or non-word, next character absent or
non-word)? -/
def wordHere (ws : List String) (prev : Option Char) (l : List Char) : Bool :=
  (match prev with
   | none => true
   | some c => !isWordChar c) &&
  ws.any fun w =>
    match eatLit w.toList l with
    | none => false
    | some [] => true
    | some (c :: _) => !isWordChar c

/-- Scan for a `\b`-delimited word alternative, tracking the previous
character. -/
def scanWord (ws : List String) : Option Char → List Char → Bool
  | _, [] => false
  | prev, c :: cs => wordHere ws prev (c :: cs) || scanWord ws (some c) cs

/-- Word regex test: `\b(w1|w2|...)\b` matches somewhere in `s`. -/
def containsWord (ws : List String) (s : String) : Bool :=
  scanWord ws none s.toList

/-- Embedding of `relDeltaFromRoot`: relative generation of a free-text
relationship label versus the root (positive = older), with the regex
tests applied in exactly the source order. -/
def relDeltaFromRoot (rel : String) : Option Int :=
  let r := lowStr rel
  if containsSub patGGGrandAnc r then some 3
  else if containsSub patGGrandAnc r then some 2
  else if containsSub patGrandAnc r then some 1
  else if containsWord ["father", "mother", "parent", "dad", "mom"] r then some 1
  else if containsWord ["son", "daughter", "child", "kid"] r then some (-1)
  else if containsSub patGrandDesc r then some (-2)
  else if containsSub patGGrandDesc r then some (-3)
  else if containsWord ["uncle", "aunt"] r then some 1
  else if containsWord ["nephew", "niece"] r then some (-1)
  else if containsWord ["sister", "brother", "sibling"] r then some 0
  else none

/-- Lookup in the `byId` map built by `new Map(members.map(m => [m._id, m]))`:
for a duplicated key the last binding wins. -/
def byIdGet (members : List Member) (k : String) : Option Member :=
  members.reverse.find? fun m => m.id == k

/-- Lookup in the `gen` map (`Map.get`): the latest binding of the key. -/
def mapGet (gen : List (String × Int)) (k : String) : Option Int :=
  (gen.reverse.find? fun p => p.1 == k).map Prod.snd

/-- Parent edges contributed by one member: `self → child` for each
children id, `father → self` and `mother → self` when present (a falsy
empty-string reference emits nothing, like the JS truthiness test). -/
def memberEdges (m : Member) : List Edge :=
  (m.childrenIds.map fun cid => (m.id, cid))
  ++ (match m.fatherId with
      | some f => if f == "" then [] else [(f, m.id)]
      | none => [])
  ++ (match m.motherId with
      | some mo => if mo == "" then [] else [(mo, m.id)]
      | none => [])

/-- Parent-edge list of the graph builder (emission order of the
source's member loop). -/
def buildPEdges (members : List Member) : List Edge :=
  members.flatMap memberEdges

/-- Spouse edges contributed by one member: one canonical edge per
listed spouse with `self-id < spouse-id`. -/
def spouseEdgesOf (m : Member) : List Edge :=
  m.spouseIds.filterMap fun s => if strLt m.id s then some (m.id, s) else none

/-- Spouse-edge list of the graph builder. -/
def buildSEdges (members : List Member) : List Edge :=
  members.flatMap spouseEdgesOf

/-- Root candidates: member ids never appearing as the child of a parent
edge. -/
def rootCandidates (members : List Member) (pE : List Edge) : List String :=
  (members.map Member.id).filter fun id => !((pE.map Prod.snd).contains id)

/-- Stable insertion of `x` after every earlier element `y` with
`le y x`. -/
def insSorted (le : α → α → Bool) (x : α) : List α → List α
  | [] => [x]
  | y :: ys => if le y x then y :: insSorted le x ys else x :: y :: ys

/-- Stable sort (JS `Array.prototype.sort` is guaranteed stable; a
stable sort by the same key is unique, so insertion sort is a faithful
embedding). -/
def stableSort (le : α → α → Bool) (l : List α) : List α :=
  l.foldl (fun acc x => insSorted le x acc) []

/-- Sort key of `pickOldest`: birth year, 9999 when absent. -/
def dobKey (m : Member) : Int :=
  (year m.dateOfBirth).getD 9999

/-- Embedding of `pickOldest`: first member of the birth-year-sorted
copy.  The source (`byDOB[0]?._id ?? members[0]._id`) is only called on
a non-empty collection; the empty case returns `""`. -/
def pickOldest (members : List Member) : String :=
  match stableSort (fun a b => decide (dobKey a ≤ dobKey b)) members with
  | m :: _ => m.id
  | [] => ""

/-- Roots: the candidates, or the single oldest member as fallback. -/
def rootsOf (members : List Member) : List String :=
  let candidates := rootCandidates members (buildPEdges members)
  if candidates.isEmpty then [pickOldest members] else candidates

/-- Initial BFS worklist: every root at generation 0. -/
def initQueue (roots : List String) : List (String × Int) :=
  roots.map fun id => (id, (0 : Int))

/-- Neighbour expansion of one BFS visit, in source order: children at
`g - 1`, then parents at `g + 1`, then spouses at `g`, each filtered
against the updated seen set (the source adds `id` to `seen` before
expanding). -/
def expand (pE sE : List Edge) (seen1 : List String) (id : String) (g : Int) :
    List (String × Int) :=
  (pE.filterMap fun e =>
    if e.1 == id && !(seen1.contains e.2) then some (e.2, g - 1) else none)
  ++ (pE.filterMap fun e =>
    if e.2 == id && !(seen1.contains e.1) then some (e.1, g + 1) else none)
  ++ (sE.flatMap fun e =>
    (if e.1 == id && !(seen1.contains e.2) then [(e.2, g)] else [])
    ++ (if e.2 == id && !(seen1.contains e.1) then [(e.1, g)] else []))

/-- All identifiers occurring as an endpoint of a parent or spouse
edge. -/
def endIds (pE sE : List Edge) : List String :=
  pE.map Prod.fst ++ pE.map Prod.snd ++ sE.map Prod.fst ++ sE.map Prod.snd

/-- Number of distinct identifiers the BFS can still visit: queue
entries and edge endpoints not yet seen. -/
def unseenCount (pE sE : List Edge) (q : List (String × Int)) (seen : List String) : Nat :=
  (((q.map Prod.fst ++ endIds pE sE).dedup).filter fun x => !(seen.contains x)).length

/-- Upper bound on the number of worklist entries one visit can push. -/
def pushCap (pE sE : List Edge) : Nat :=
  2 * pE.length + 2 * sE.length

/-- Fuel sufficient for the worklist loop to reach its fixpoint
(proved by `bfsFuel_stable`). -/
def bfsBound (pE sE : List Edge) (q : List (String × Int)) (seen : List String) : Nat :=
  unseenCount pE sE q seen * (1 + pushCap pE sE) + q.length

/-- Fuel-indexed embedding of the `while (q.length)` generation
assignment loop: pop FIFO, skip seen ids, otherwise record the
generation and push the expansion.  With the fuel passed by
`buildTreeLayout` this computes the limit of the source loop
(`bfsFuel_stable`). -/
def bfsFuel (pE sE : List Edge) :
    Nat → List (String × Int) → List String → List (String × Int) → List (String × Int)
  | _, [], _, gen => gen
  | 0, _ :: _, _, gen => gen
  | fuel + 1, (id, g) :: rest, seen, gen =>
    if seen.contains id then bfsFuel pE sE fuel rest seen gen
    else bfsFuel pE sE fuel (rest ++ expand pE sE (id :: seen) id g) (id :: seen)
      (gen ++ [(id, g)])

/-- Generation map produced by the BFS phase of `buildTreeLayout`. -/
def bfsGen (members : List Member) : List (String × Int) :=
  let pE := buildPEdges members
  let sE := buildSEdges members
  let q0 := initQueue (rootsOf members)
  bfsFuel pE sE (bfsBound pE sE q0 []) q0 [] []

/-- Generation chosen for a member the BFS did not reach: relationship
offset from the root generation, else the birth-year comparison against
the fallback root, else the root generation. -/
def fillValue (members : List Member) (fallbackRoot : String) (rootG : Int) (m : Member) : Int :=
  match relDeltaFromRoot m.relationship with
  | some d => rootG + d
  | none =>
    match year m.dateOfBirth, year ((byIdGet members fallbackRoot).bind Member.dateOfBirth) with
    | some ym, some yr => if ym ≤ yr then rootG + 1 else rootG - 1
    | _, _ => rootG

/-- One iteration of the fill loop: skip an already assigned member,
otherwise append its heuristic generation. -/
def fillStep (members : List Member) (fallbackRoot : String) (rootG : Int)
    (acc : List (String × Int)) (m : Member) : List (String × Int) :=
  if (mapGet acc m.id).isSome then acc
  else acc ++ [(m.id, fillValue members fallbackRoot rootG m)]

/-- Embedding of the fill loop for unvisited members (`rootG` is read
from the map once, before the loop). -/
def fillUnassigned (members : List Member) (fallbackRoot : String)
    (gen0 : List (String × Int)) : List (String × Int) :=
  let rootG := (mapGet gen0 fallbackRoot).getD 0
  members.foldl (fillStep members fallbackRoot rootG) gen0

/-- Minimum of an integer list (`Math.min(...)`; the engine only takes
it on a non-empty list). -/
def listMin : List Int → Int
  | [] => 0
  | x :: xs => xs.foldl min x

/-- Maximum of an integer list. -/
def listMax : List Int → Int
  | [] => 0
  | x :: xs => xs.foldl max x

/-- Row construction: one row per integer between the minimum and the
maximum generation, each row listing its ids in map insertion order. -/
def buildLevels (gen : List (String × Int)) : List (List String) :=
  let minG := listMin (gen.map Prod.snd)
  let maxG := listMax (gen.map Prod.snd)
  (List.range (maxG - minG + 1).toNat).map fun i =>
    (gen.filter fun p => p.2 - minG == Int.ofNat i).map Prod.fst

/-- Split a character list at whitespace characters (empty chunks kept,
filtered by the caller, matching `split(/\s+/)` on a trimmed string). -/
def splitTokens (l : List Char) : List (List Char) :=
  l.foldr
    (fun c acc =>
      if c.isWhitespace then [] :: acc
      else
        match acc with
        | [] => [[c]]
        | t :: ts => (c :: t) :: ts)
    []

/-- Embedding of `lastToken`: lower-cased last whitespace-delimited word
of the name, `""` when there is none. -/
def lastToken (s : String) : String :=
  lowStr (String.mk (((splitTokens s.data).filter fun t => !t.isEmpty).getLastD []))

/-- Clustering token of a row member: last-name token of its first
parent by edge order, falling back (also through JS falsiness of an
empty parent id or empty token) to the member's own name token. -/
def tokenFor (members : List Member) (pE : List Edge) (id : String) : String :=
  let ownTok := lastToken (((byIdGet members id).map Member.name).getD "")
  match (pE.filter fun e => e.2 == id).map Prod.fst with
  | [] => ownTok
  | p :: _ =>
    if p == "" then ownTok
    else
      let t := lastToken (((byIdGet members p).map Member.name).getD "")
      if t == "" then ownTok else t

/-- Append `id` to the bucket of token `t`, creating the bucket at the
end when absent (JS `Map` set/push semantics, insertion order kept). -/
def addToFam (t id : String) : List (String × List String) → List (String × List String)
  | [] => [(t, [id])]
  | (k, ids) :: rest =>
    if k == t then (k, ids ++ [id]) :: rest else (k, ids) :: addToFam t id rest

/-- Group the members of a row into buckets by clustering token. -/
def groupTokens (members : List Member) (pE : List Edge) (row : List String) :
    List (String × List String) :=
  row.foldl (fun fams id => addToFam (tokenFor members pE id) id fams) []

/-- Default member standing in for the source's non-null assertion
`byId.get(a)!` (never reached on inputs whose row ids resolve). -/
def defaultMember : Member :=
  { id := "", name := "", relationship := "" }

/-- Member record of an id, as the row-sorting comparator reads it. -/
def memberAt (members : List Member) (id : String) : Member :=
  (byIdGet members id).getD defaultMember

/-- Within-bucket comparator: birth year ascending (9999 when missing),
then name. -/
def bucketLE (members : List Member) (a b : String) : Bool :=
  let ya := (year (memberAt members a).dateOfBirth).getD 9999
  let yb := (year (memberAt members b).dateOfBirth).getD 9999
  if ya == yb then strLe (memberAt members a).name (memberAt members b).name
  else decide (ya < yb)

/-- Reordering of one row: bucket by token, sort each bucket by birth
year then name, order buckets by token, concatenate. -/
def orderRow (members : List Member) (pE : List Edge) (row : List String) : List String :=
  let fams := groupTokens members pE row
  let sortedBuckets := fams.map fun p => (p.1, stableSort (bucketLE members) p.2)
  (stableSort (fun A B => strLe A.1 B.1) sortedBuckets).flatMap Prod.snd

/-- Synthesized vertical edges between one adjacent row pair: each kid
connects to the parent at its own index, clamped to the last parent
(nothing emitted when the parent slot is missing or falsy-empty). -/
def synthRow (parents kids : List String) : List Edge :=
  kids.enum.filterMap fun p =>
    let pid := parents.getD (min p.1 (parents.length - 1)) ""
    if pid == "" then none else some (pid, p.2)

/-- Synthesized edges over all adjacent row pairs. -/
def synthAll (levels : List (List String)) : List Edge :=
  (List.range (levels.length - 1)).flatMap fun r =>
    synthRow (levels.getD r []) (levels.getD (r + 1) [])

/-- Embedding of `buildTreeLayout`: the full layout engine. -/
def buildTreeLayout (members : List Member) : Layout :=
  if members.isEmpty then { levels := [], pEdges := [], sEdges := [] }
  else
    let pE := buildPEdges members
    let sE := buildSEdges members
    let fallbackRoot := pickOldest members
    let gen := fillUnassigned members fallbackRoot (bfsGen members)
    let levels := (buildLevels gen).map (orderRow members pE)
    let pEdgesFinal := if pE.isEmpty then synthAll levels else pE
    { levels := levels, pEdges := pEdgesFinal, sEdges := sE }

/-- Decidable well-formedness of references: every father, mother,
spouse and children identifier of a member resolves to a member of the
collection. -/
def refsResolvedB (members : List Member) : Bool :=
  let ids := members.map Member.id
  members.all fun m =>
    m.fatherId.all ids.contains && m.motherId.all ids.contains
    && m.spouseIds.all ids.contains && m.childrenIds.all ids.contains

/-- Scenario input of spec section 8: Ann Lee, Bob Lee (mother Ann),
Cid Lee (father Bob). -/
def scenarioLee : List Member :=
  [ { id := "1", name := "Ann Lee", relationship := "Grandmother",
      dateOfBirth := some "1940" },
    { id := "2", name := "Bob Lee", relationship := "Father",
      dateOfBirth := some "1965", motherId := some "1" },
    { id := "3", name := "Cid Lee", relationship := "Son",
      dateOfBirth := some "1990", fatherId := some "2" } ]

/-- Three members carrying only relationship labels (the fallback-edge
scenario of spec section 8): no links, no birth dates. -/
def labelOnlyTrio : List Member :=
  [ { id := "m1", name := "Abe Adams", relationship := "Grandfather" },
    { id := "m2", name := "Ben Brown", relationship := "Father" },
    { id := "m3", name := "Cal Clark", relationship := "Son" } ]

/-- Single member whose father reference `"x"` dangles (no member with
that identifier exists). -/
def danglingFather : List Member :=
  [ { id := "a", name := "Ann Alpha", relationship := "Daughter",
      fatherId := some "x" } ]

/-- Collection violating the unique-identifier precondition: two
members share the identifier `"a"`. -/
def duplicatePair : List Member :=
  [ { id := "a", name := "Ann A", relationship := "Sister" },
    { id := "a", name := "Bob B", relationship := "Brother" } ]

/-- Root plus a two-member parent cycle whose labels resolve to offset
`+3`, leaving generations 1 and 2 unpopulated. -/
def gappedTrio : List Member :=
  [ { id := "a", name := "Al Alpha", relationship := "Cousin" },
    { id := "b", name := "Bo Beta", relationship := "Great-Great-Grandfather",
      fatherId := some "c" },
    { id := "c", name := "Cy Gamma", relationship := "Great-Great-Grandfather",
      fatherId := some "b" } ]

/-- Mutually listed spouses. -/
def mutualSpouses : List Member :=
  [ { id := "a", name := "A A", relationship := "Wife", spouseIds := ["b"] },
    { id := "b", name := "B B", relationship := "Husband", spouseIds := ["a"] } ]

/-- Member carrying one reference of every kind, all dangling. -/
def fullRefsMember : Member :=
  { id := "m", name := "W W", relationship := "Cousin",
    fatherId := some "f0", motherId := some "g0",
    spouseIds := ["z"], childrenIds := ["c0"] }

/-- Characterization of the edges one member contributes. -/
theorem mem_memberEdges {m : Member} {e : Edge} (h : e ∈ memberEdges m) :
    (e.1 = m.id ∧ e.2 ∈ m.childrenIds)
    ∨ (∃ f, m.fatherId = some f ∧ e = (f, m.id))
    ∨ (∃ mo, m.motherId = some mo ∧ e = (mo, m.id)) := by
  simp only [memberEdges, List.mem_append, List.mem_map] at h
  rcases h with (⟨c, hc, he⟩ | h) | h
  · exact Or.inl ⟨by rw [← he], by rw [← he]; exact hc⟩
  · rcases hf : m.fatherId with _ | f
    · rw [hf] at h; simp at h
    · rw [hf] at h
      refine Or.inr (Or.inl ⟨f, rfl, ?_⟩)
      by_cases hfe : (f == "") = true
      · simp [hfe] at h
      · simp [hfe] at h; exact h
  · rcases hf : m.motherId with _ | mo
    · rw [hf] at h; simp at h
    · rw [hf] at h
      refine Or.inr (Or.inr ⟨mo, rfl, ?_⟩)
      by_cases hfe : (mo == "") = true
      · simp [hfe] at h
      · simp [hfe] at h; exact h

/-- Characterization of the spouse edges one member contributes. -/
theorem mem_spouseEdgesOf {m : Member} {e : Edge} (h : e ∈ spouseEdgesOf m) :
    e.1 = m.id ∧ e.2 ∈ m.spouseIds ∧ strLt m.id e.2 = true := by
  simp only [spouseEdgesOf, List.mem_filterMap] at h
  rcases h with ⟨s, hs, he⟩
  by_cases hlt : strLt m.id s = true
  · rw [if_pos hlt] at he
    injection he with he2
    subst he2
    exact ⟨rfl, hs, hlt⟩
  · simp [hlt] at he

/-- C1, counterexample: on a member collection with a dangling father
reference the rows are not a partition of the member identifiers — the
dangling identifier `"x"` is assigned a generation by the traversal and
appears in a row although it is not an input member. -/
theorem c1_partition_counterexample :
    (buildTreeLayout danglingFather).levels = [["a"], ["x"]]
      ∧ ¬ "x" ∈ danglingFather.map Member.id := by
  decide

/-- C2, counterexample: the graph builder emits a parent edge for the
dangling father reference `"x"` instead of dropping it, so not every
edge has both endpoints in the collection. -/
theorem c2_dangling_edge_counterexample :
    buildPEdges danglingFather = [("x", "a")]
      ∧ ¬ "x" ∈ danglingFather.map Member.id := by
  decide

/-- C2, amended: the graph builder emits an edge for every reference
field of every member — father, mother and children references yield
parent edges and canonically ordered spouse references yield spouse
edges — without checking whether the referenced identifier belongs to
the collection (only a falsy empty-string reference is skipped). -/
theorem c2_refs_always_emit_edges (members : List Member) (m : Member)
    (hm : m ∈ members) :
    (∀ f, m.fatherId = some f → ¬ f = "" → (f, m.id) ∈ buildPEdges members)
    ∧ (∀ mo, m.motherId = some mo → ¬ mo = "" → (mo, m.id) ∈ buildPEdges members)
    ∧ (∀ c ∈ m.childrenIds, (m.id, c) ∈ buildPEdges members)
    ∧ (∀ s ∈ m.spouseIds, strLt m.id s = true → (m.id, s) ∈ buildSEdges members) := by
  refine ⟨?_, ?_, ?_, ?_⟩
  · intro f hf hne
    refine List.mem_flatMap.mpr ⟨m, hm, ?_⟩
    have hbe : (f == "") = false := by
      simpa using hne
    simp [memberEdges, hf, hbe]
  · intro mo hmo hne
    refine List.mem_flatMap.mpr ⟨m, hm, ?_⟩
    have hbe : (mo == "") = false := by
      simpa using hne
    simp [memberEdges, hmo, hbe]
  · intro c hc
    refine List.mem_flatMap.mpr ⟨m, hm, ?_⟩
    simp only [memberEdges, List.mem_append, List.mem_map]
    exact Or.inl (Or.inl ⟨c, hc, rfl⟩)
  · intro s hs hlt
    refine List.mem_flatMap.mpr ⟨m, hm, ?_⟩
    refine List.mem_filterMap.mpr ⟨s, hs, ?_⟩
    rw [if_pos hlt]

/-- C2, witness: a member with a dangling father, mother, child and
spouse reference contributes all four edges. -/
theorem c2_refs_always_emit_edges_witness :
    ("f0", "m") ∈ buildPEdges [fullRefsMember]
      ∧ ("g0", "m") ∈ buildPEdges [fullRefsMember]
      ∧ ("m", "c0") ∈ buildPEdges [fullRefsMember]
      ∧ ("m", "z") ∈ buildSEdges [fullRefsMember] := by
  obtain ⟨h1, h2, h3, h4⟩ :=
    c2_refs_always_emit_edges [fullRefsMember] fullRefsMember (by decide)
  exact ⟨h1 "f0" rfl (by decide), h2 "g0" rfl (by decide),
    h3 "c0" (by decide), h4 "z" (by decide) (by decide)⟩

/-- C3, counterexample: for the three label-only members the engine
returns a single row (all three members are roots at generation 0, so
the relationship labels are never consulted), not three rows. -/
theorem c3_single_row_counterexample :
    (buildTreeLayout labelOnlyTrio).levels.length = 1 := by
  decide

/-- C3, amended: for the three label-only members the output has
exactly one row holding all three members, and no edges at all — the
adjacent-row synthesis has no adjacent pair to connect. -/
theorem c3_label_only_layout :
    buildTreeLayout labelOnlyTrio =
      { levels := [["m1", "m2", "m3"]], pEdges := [], sEdges := [] } := by
  decide

/-- C4: labels containing "great-grandson"/"great-granddaughter"/
"great-grandchild" are captured by the earlier, plainer
`grand(son|daughter|child)` pattern and map to offset −2; the source's
−3 branch is unreachable for them. -/
theorem c4_great_grand_desc_gets_minus_two :
    relDeltaFromRoot "great-grandson" = some (-2)
      ∧ relDeltaFromRoot "great-granddaughter" = some (-2)
      ∧ relDeltaFromRoot "great-grandchild" = some (-2)
      ∧ relDeltaFromRoot "Great-Grandson" = some (-2) := by
  decide

/-- C5, counterexample: "Great-Grandfather" does not resolve to the +3
tier. -/
theorem c5_great_grandfather_counterexample :
    ¬ relDeltaFromRoot "Great-Grandfather" = some 3 := by
  decide

/-- C5, amended: "Great-Grandfather" resolves to the +2 tier (its own
table row), and does not fall through to the plainer "Grandfather"
pattern's +1. -/
theorem c5_great_grandfather_tier :
    relDeltaFromRoot "Great-Grandfather" = some 2
      ∧ relDeltaFromRoot "Grandfather" = some 1 := by
  decide

/-- C6, counterexample: the rows of the Lee scenario are not
[[1],[2],[3]]. -/
theorem c6_rows_counterexample :
    ¬ (buildTreeLayout scenarioLee).levels = [["1"], ["2"], ["3"]] := by
  decide

/-- C6, amended: in the Lee scenario the selected root is id 1, the
rows are [[3],[2],[1]] — the younger generations sit in the upper rows,
so the youngest member is row 0 — and the edges are exactly the two
parent-child edges (1→2) and (2→3). -/
theorem c6_scenario_layout :
    buildTreeLayout scenarioLee =
      { levels := [["3"], ["2"], ["1"]],
        pEdges := [("1", "2"), ("2", "3")], sEdges := [] }
      ∧ rootsOf scenarioLee = ["1"] := by
  decide

/-- C7, counterexample: on a collection with a duplicated identifier
the engine does not propagate an error — it silently returns a Layout
Result. -/
theorem c7_duplicate_ids_counterexample :
    buildTreeLayout duplicatePair =
      { levels := [["a"]], pEdges := [], sEdges := [] } := by
  decide

/-- C7, amended: with duplicate identifiers the engine silently picks:
the duplicated identifier appears exactly once in the rows and the
identifier-indexed lookup resolves to the later of the two records. -/
theorem c7_duplicate_ids_silent :
    (buildTreeLayout duplicatePair).levels.flatten.count "a" = 1
      ∧ byIdGet duplicatePair "a" =
          some { id := "a", name := "Bob B", relationship := "Brother" } := by
  decide

/-- Occurrences of a canonical pair among the edges one spouse list
emits: one per occurrence of the spouse in the list. -/
theorem count_spouse_filterMap (a b : String) (hlt : strLt a b = true) :
    ∀ l : List String,
      (l.filterMap fun s => if strLt a s then some ((a : String), s) else none).count (a, b)
        = l.count b := by
  intro l
  induction l with
  | nil => rfl
  | cons s rest ih =>
    by_cases hs : strLt a s = true
    · simp only [List.filterMap_cons, if_pos hs]
      rw [List.count_cons, List.count_cons, ih]
      have hpair : (((a, s) : Edge) == (a, b)) = (s == b) := by
        by_cases hsb : s = b
        · subst hsb; simp
        · have h1 : (s == b) = false := by simpa using hsb
          have h2 : (((a, s) : Edge) == (a, b)) = false := by
            simp [hsb]
          rw [h1, h2]
      rw [hpair]
    · simp only [List.filterMap_cons, if_neg hs]
      rw [ih, List.count_cons]
      have hsb : (s == b) = false := by
        by_cases h : s = b
        · subst h; exact absurd hlt hs
        · simpa using h
      rw [hsb]
      simp

/-- A member with a different identifier contributes no edge with first
component `a`. -/
theorem count_spouseEdgesOf_ne {m : Member} {a b : String} (h : ¬ m.id = a) :
    (spouseEdgesOf m).count (a, b) = 0 := by
  rw [List.count_eq_zero]
  intro hmem
  exact h (mem_spouseEdgesOf hmem).1.symm

/-- A collection without identifier `a` emits no spouse edge starting
at `a`. -/
theorem count_buildSEdges_zero {members : List Member} {a b : String}
    (h : ¬ a ∈ members.map Member.id) :
    (buildSEdges members).count (a, b) = 0 := by
  rw [List.count_eq_zero]
  intro hmem
  rcases List.mem_flatMap.mp hmem with ⟨m, hm, he⟩
  exact h (List.mem_map.mpr ⟨m, hm, (mem_spouseEdgesOf he).1.symm⟩)

/-- Multiplicity of a canonical pair in the spouse-edge list: one when
the member with the smaller identifier lists the other, zero
otherwise. -/
theorem count_buildSEdges (a b : String) (hlt : strLt a b = true) :
    ∀ members : List Member, (members.map Member.id).Nodup →
      (∀ m ∈ members, m.spouseIds.Nodup) →
      (buildSEdges members).count (a, b)
        = if ∃ m ∈ members, m.id = a ∧ b ∈ m.spouseIds then 1 else 0 := by
  intro members
  induction members with
  | nil => intro _ _; simp [buildSEdges]
  | cons m ms ih =>
    intro hids hsp
    simp only [List.map_cons, List.nodup_cons] at hids
    have hmid : ¬ m.id ∈ ms.map Member.id := hids.1
    have hsp' : ∀ x ∈ ms, x.spouseIds.Nodup := fun x hx =>
      hsp x (List.mem_cons_of_mem _ hx)
    have hApp : buildSEdges (m :: ms) = spouseEdgesOf m ++ buildSEdges ms := rfl
    rw [hApp, List.count_append]
    by_cases hma : m.id = a
    · subst hma
      rw [count_buildSEdges_zero hmid]
      have hhead : (spouseEdgesOf m).count (m.id, b)
          = if b ∈ m.spouseIds then 1 else 0 := by
        rw [show spouseEdgesOf m = m.spouseIds.filterMap
            (fun s => if strLt m.id s then some (m.id, s) else none) from rfl]
        rw [count_spouse_filterMap m.id b hlt]
        by_cases hb : b ∈ m.spouseIds
        · rw [if_pos hb]
          exact List.count_eq_one_of_mem (hsp m (List.mem_cons_self _ _)) hb
        · rw [if_neg hb]
          exact List.count_eq_zero.mpr hb
      rw [hhead]
      have hcond : (∃ x ∈ m :: ms, x.id = m.id ∧ b ∈ x.spouseIds)
          ↔ b ∈ m.spouseIds := by
        constructor
        · rintro ⟨x, hx, hxa, hxb⟩
          rcases List.mem_cons.mp hx with rfl | hx'
          · exact hxb
          · exact absurd (List.mem_map.mpr ⟨x, hx', hxa⟩) hmid
        · intro hb
          exact ⟨m, List.mem_cons_self _ _, rfl, hb⟩
      simp only [hcond, Nat.add_zero]
    · rw [count_spouseEdgesOf_ne hma, ih hids.2 hsp', Nat.zero_add]
      have hcond : (∃ x ∈ m :: ms, x.id = a ∧ b ∈ x.spouseIds)
          ↔ (∃ x ∈ ms, x.id = a ∧ b ∈ x.spouseIds) := by
        constructor
        · rintro ⟨x, hx, hxa, hxb⟩
          rcases List.mem_cons.mp hx with rfl | hx'
          · exact absurd hxa hma
          · exact ⟨x, hx', hxa, hxb⟩
        · rintro ⟨x, hx, hxa, hxb⟩
          exact ⟨x, List.mem_cons_of_mem _ hx, hxa, hxb⟩
      simp only [hcond]

/-- C8: every emitted spouse edge is canonically ordered, and for every
pair with `a < b` exactly one `sp` edge `(a, b)` is emitted precisely
when the member with identifier `a` lists `b` among its spouses — in
particular one edge, not two, when both members list each other. -/
theorem c8_spouse_edges_once (members : List Member)
    (hids : (members.map Member.id).Nodup)
    (hsp : ∀ m ∈ members, m.spouseIds.Nodup) :
    (∀ e ∈ buildSEdges members, strLt e.1 e.2 = true)
    ∧ ∀ a b : String, strLt a b = true →
      (buildSEdges members).count (a, b)
        = if ∃ m ∈ members, m.id = a ∧ b ∈ m.spouseIds then 1 else 0 := by
  constructor
  · intro e he
    rcases List.mem_flatMap.mp he with ⟨m, _, hme⟩
    obtain ⟨h1, _, h3⟩ := mem_spouseEdgesOf hme
    rw [h1]
    exact h3
  · intro a b hlt
    exact count_buildSEdges a b hlt members hids hsp

/-- C8, witness: for the mutually listed spouse pair exactly one
canonical `sp` edge is emitted. -/
theorem c8_spouse_edges_once_witness :
    (buildSEdges mutualSpouses).count ("a", "b") = 1 := by
  have h := (c8_spouse_edges_once mutualSpouses (by decide)
    (by decide)).2 "a" "b" (by decide)
  rw [h]
  decide

/-- Draining equation: an empty worklist returns the accumulated map,
whatever fuel remains. -/
theorem bfsFuel_nil (pE sE : List Edge) (fuel : Nat) (seen : List String)
    (gen : List (String × Int)) : bfsFuel pE sE fuel [] seen gen = gen := by
  cases fuel <;> rfl

/-- Unfolding equation of one worklist step. -/
theorem bfsFuel_cons (pE sE : List Edge) (n : Nat) (id : String) (g : Int)
    (rest : List (String × Int)) (seen : List String) (gen : List (String × Int)) :
    bfsFuel pE sE (n + 1) ((id, g) :: rest) seen gen =
      if seen.contains id then bfsFuel pE sE n rest seen gen
      else bfsFuel pE sE n (rest ++ expand pE sE (id :: seen) id g) (id :: seen)
        (gen ++ [(id, g)]) := rfl

/-- Boolean list containment read as membership. -/
theorem contains_iff {l : List String} {x : String} : l.contains x = true ↔ x ∈ l :=
  List.elem_iff

/-- Every identifier the expansion pushes is an edge endpoint. -/
theorem expand_fst_mem_endIds (pE sE : List Edge) (seen1 : List String) (id : String)
    (g : Int) : ∀ x ∈ (expand pE sE seen1 id g).map Prod.fst, x ∈ endIds pE sE := by
  intro x hx
  rcases List.mem_map.mp hx with ⟨p, hp, hpx⟩
  simp only [expand, List.mem_append] at hp
  have hgoal : (∃ a ∈ pE, a.1 = x) ∨ (∃ a ∈ pE, a.2 = x)
      ∨ (∃ a ∈ sE, a.1 = x) ∨ (∃ a ∈ sE, a.2 = x) := by
    rcases hp with (hp | hp) | hp
    · rcases List.mem_filterMap.mp hp with ⟨e, he, heq⟩
      by_cases hc : (e.1 == id && !(seen1.contains e.2)) = true
      · rw [if_pos hc] at heq
        injection heq with h2
        exact Or.inr (Or.inl ⟨e, he, by rw [← hpx, ← h2]⟩)
      · rw [if_neg hc] at heq
        cases heq
    · rcases List.mem_filterMap.mp hp with ⟨e, he, heq⟩
      by_cases hc : (e.2 == id && !(seen1.contains e.1)) = true
      · rw [if_pos hc] at heq
        injection heq with h2
        exact Or.inl ⟨e, he, by rw [← hpx, ← h2]⟩
      · rw [if_neg hc] at heq
        cases heq
    · rcases List.mem_flatMap.mp hp with ⟨e, he, hmem⟩
      rcases List.mem_append.mp hmem with hmem | hmem
      · by_cases hc : (e.1 == id && !(seen1.contains e.2)) = true
        · rw [if_pos hc] at hmem
          have h2 := List.mem_singleton.mp hmem
          exact Or.inr (Or.inr (Or.inr ⟨e, he, by rw [← hpx, h2]⟩))
        · rw [if_neg hc] at hmem
          cases hmem
      · by_cases hc : (e.2 == id && !(seen1.contains e.1)) = true
        · rw [if_pos hc] at hmem
          have h2 := List.mem_singleton.mp hmem
          exact Or.inr (Or.inr (Or.inl ⟨e, he, by rw [← hpx, h2]⟩))
        · rw [if_neg hc] at hmem
          cases hmem
  unfold endIds
  rcases hgoal with h | h | h | h
  · rcases h with ⟨a, ha, hax⟩
    exact List.mem_append.mpr (Or.inl (List.mem_append.mpr (Or.inl
      (List.mem_append.mpr (Or.inl (List.mem_map.mpr ⟨a, ha, hax⟩))))))
  · rcases h with ⟨a, ha, hax⟩
    exact List.mem_append.mpr (Or.inl (List.mem_append.mpr (Or.inl
      (List.mem_append.mpr (Or.inr (List.mem_map.mpr ⟨a, ha, hax⟩))))))
  · rcases h with ⟨a, ha, hax⟩
    exact List.mem_append.mpr (Or.inl (List.mem_append.mpr (Or.inr
      (List.mem_map.mpr ⟨a, ha, hax⟩))))
  · rcases h with ⟨a, ha, hax⟩
    exact List.mem_append.mpr (Or.inr (List.mem_map.mpr ⟨a, ha, hax⟩))

/-- The spouse expansion pushes at most two entries per spouse edge. -/
theorem spousePush_length_le (seen1 : List String) (id : String) (g : Int) :
    ∀ sE : List Edge,
      (sE.flatMap fun e =>
        (if e.1 == id && !(seen1.contains e.2) then [(e.2, g)] else [])
        ++ (if e.2 == id && !(seen1.contains e.1) then [(e.1, g)] else [])).length
      ≤ 2 * sE.length := by
  intro sE
  induction sE with
  | nil => simp
  | cons e rest ih =>
    rw [List.flatMap_cons, List.length_append]
    have h1 : ((if e.1 == id && !(seen1.contains e.2) then [(e.2, g)] else [])
        ++ (if e.2 == id && !(seen1.contains e.1) then [(e.1, g)] else [])).length ≤ 2 := by
      rw [List.length_append]
      split <;> split <;> simp
    simp only [List.length_cons]
    omega

/-- One visit pushes at most `pushCap` worklist entries. -/
theorem expand_length_le (pE sE : List Edge) (seen1 : List String) (id : String) (g : Int) :
    (expand pE sE seen1 id g).length ≤ pushCap pE sE := by
  unfold expand pushCap
  rw [List.length_append, List.length_append]
  have h1 := List.length_filterMap_le
    (fun e : Edge => if e.1 == id && !(seen1.contains e.2) then some (e.2, g - 1) else none) pE
  have h2 := List.length_filterMap_le
    (fun e : Edge => if e.2 == id && !(seen1.contains e.1) then some (e.1, g + 1) else none) pE
  have h3 := spousePush_length_le seen1 id g sE
  omega

/-- The unseen-identifier count as a finite-set cardinality. -/
theorem unseenCount_eq_card (pE sE : List Edge) (q : List (String × Int))
    (seen : List String) :
    unseenCount pE sE q seen
      = ((q.map Prod.fst ++ endIds pE sE).toFinset.filter fun x => ¬ x ∈ seen).card := by
  unfold unseenCount
  have hnd : ((q.map Prod.fst ++ endIds pE sE).dedup.filter
      fun x => !(seen.contains x)).Nodup := (List.nodup_dedup _).filter _
  rw [← List.toFinset_card_of_nodup hnd]
  congr 1
  ext x
  simp only [List.mem_toFinset, List.mem_filter, List.mem_dedup, Finset.mem_filter,
    Bool.not_eq_true']
  constructor
  · rintro ⟨hx, hc⟩
    refine ⟨hx, fun hmem => ?_⟩
    have htrue := contains_iff.mpr hmem
    rw [hc] at htrue
    cases htrue
  · rintro ⟨hx, hc⟩
    refine ⟨hx, ?_⟩
    by_cases h : seen.contains x = true
    · exact absurd (contains_iff.mp h) hc
    · simpa using h

/-- Popping a seen identifier does not change the unseen count. -/
theorem unseenCount_cons_seen (pE sE : List Edge) {id : String} (g : Int)
    (rest : List (String × Int)) {seen : List String} (h : id ∈ seen) :
    unseenCount pE sE rest seen = unseenCount pE sE ((id, g) :: rest) seen := by
  rw [unseenCount_eq_card, unseenCount_eq_card]
  congr 1
  ext x
  simp only [Finset.mem_filter, List.mem_toFinset, List.mem_append, List.map_cons,
    List.mem_cons]
  constructor
  · rintro ⟨hx, hxs⟩
    exact ⟨by tauto, hxs⟩
  · rintro ⟨hx, hxs⟩
    rcases hx with (rfl | hx) | hx
    · exact absurd h hxs
    · exact ⟨Or.inl hx, hxs⟩
    · exact ⟨Or.inr hx, hxs⟩

/-- Visiting an unseen identifier strictly decreases the unseen
count. -/
theorem unseenCount_step_lt (pE sE : List Edge) {id : String} (g : Int)
    (rest : List (String × Int)) {seen : List String} (h : ¬ id ∈ seen) :
    unseenCount pE sE (rest ++ expand pE sE (id :: seen) id g) (id :: seen)
      < unseenCount pE sE ((id, g) :: rest) seen := by
  rw [unseenCount_eq_card, unseenCount_eq_card]
  have hsub : ((rest ++ expand pE sE (id :: seen) id g).map Prod.fst
        ++ endIds pE sE).toFinset.filter (fun x => ¬ x ∈ id :: seen)
      ⊆ (((id, g) :: rest).map Prod.fst ++ endIds pE sE).toFinset.filter
        fun x => ¬ x ∈ seen := by
    intro x hx
    simp only [Finset.mem_filter, List.mem_toFinset, List.mem_append, List.map_append,
      List.map_cons, List.mem_cons] at hx ⊢
    obtain ⟨hx1, hx2⟩ := hx
    refine ⟨?_, fun hxx => hx2 (Or.inr hxx)⟩
    rcases hx1 with (hx1 | hx1) | hx1
    · exact Or.inl (Or.inr hx1)
    · exact Or.inr (expand_fst_mem_endIds pE sE (id :: seen) id g x hx1)
    · exact Or.inr hx1
  apply Finset.card_lt_card
  refine (Finset.ssubset_iff_of_subset hsub).mpr ⟨id, ?_, ?_⟩
  · simp only [Finset.mem_filter, List.mem_toFinset, List.mem_append, List.map_cons,
      List.mem_cons]
    exact ⟨by tauto, h⟩
  · simp only [Finset.mem_filter, List.mem_toFinset]
    rintro ⟨-, hno⟩
    exact hno (List.mem_cons_self _ _)

/-- One extra unit of fuel changes nothing once the fuel reaches the
bound: the worklist loop has drained. -/
theorem bfsFuel_step_stable (pE sE : List Edge) :
    ∀ fuel q seen gen, bfsBound pE sE q seen ≤ fuel →
      bfsFuel pE sE fuel q seen gen = bfsFuel pE sE (fuel + 1) q seen gen := by
  intro fuel
  induction fuel with
  | zero =>
    intro q seen gen hb
    have hq : q = [] := by
      unfold bfsBound at hb
      exact List.length_eq_zero.mp (by omega)
    subst hq
    rw [bfsFuel_nil, bfsFuel_nil]
  | succ n ih =>
    intro q seen gen hb
    match q with
    | [] => rw [bfsFuel_nil, bfsFuel_nil]
    | (id, g) :: rest =>
      by_cases hc : seen.contains id = true
      · rw [bfsFuel_cons, bfsFuel_cons, if_pos hc, if_pos hc]
        apply ih
        have hmem : id ∈ seen := contains_iff.mp hc
        unfold bfsBound at hb ⊢
        rw [unseenCount_cons_seen pE sE g rest hmem]
        simp only [List.length_cons] at hb
        generalize unseenCount pE sE ((id, g) :: rest) seen * (1 + pushCap pE sE) = A
          at hb ⊢
        omega
      · have hcm : ¬ id ∈ seen := fun hmm => hc (contains_iff.mpr hmm)
        rw [bfsFuel_cons, bfsFuel_cons, if_neg hc, if_neg hc]
        apply ih
        have hUlt := unseenCount_step_lt pE sE g rest hcm
        have hexp := expand_length_le pE sE (id :: seen) id g
        unfold bfsBound at hb ⊢
        rw [List.length_append]
        simp only [List.length_cons] at hb
        have hkey : unseenCount pE sE (rest ++ expand pE sE (id :: seen) id g)
              (id :: seen) * (1 + pushCap pE sE) + (1 + pushCap pE sE)
            ≤ unseenCount pE sE ((id, g) :: rest) seen * (1 + pushCap pE sE) := by
          have h1 : unseenCount pE sE (rest ++ expand pE sE (id :: seen) id g)
              (id :: seen) + 1 ≤ unseenCount pE sE ((id, g) :: rest) seen := hUlt
          calc unseenCount pE sE (rest ++ expand pE sE (id :: seen) id g)
                (id :: seen) * (1 + pushCap pE sE) + (1 + pushCap pE sE)
              = (unseenCount pE sE (rest ++ expand pE sE (id :: seen) id g)
                (id :: seen) + 1) * (1 + pushCap pE sE) := by ring
            _ ≤ unseenCount pE sE ((id, g) :: rest) seen * (1 + pushCap pE sE) :=
                Nat.mul_le_mul_right _ h1
        generalize unseenCount pE sE (rest ++ expand pE sE (id :: seen) id g)
          (id :: seen) * (1 + pushCap pE sE) = A at hkey ⊢
        generalize unseenCount pE sE ((id, g) :: rest) seen * (1 + pushCap pE sE) = B
          at hkey hb
        omega

/-- The fuel passed by the engine is past the fixpoint of the worklist
loop: any extra fuel computes the same generation map, so the embedded
function is the limit of the source's unbounded `while` loop. -/
theorem bfsFuel_stable (pE sE : List Edge) (q : List (String × Int)) (seen : List String)
    (gen : List (String × Int)) :
    ∀ extra : Nat,
      bfsFuel pE sE (bfsBound pE sE q seen) q seen gen
        = bfsFuel pE sE (bfsBound pE sE q seen + extra) q seen gen := by
  intro extra
  induction extra with
  | zero => rfl
  | succ k ih =>
    rw [ih]
    exact bfsFuel_step_stable pE sE (bfsBound pE sE q seen + k) q seen gen
      (Nat.le_add_right _ _)

/-- The BFS never assigns a generation to an identifier twice: the keys
of the produced map stay duplicate-free. -/
theorem bfsFuel_keys_nodup (pE sE : List Edge) :
    ∀ (fuel : Nat) (q : List (String × Int)) (seen : List String)
      (gen : List (String × Int)),
      (gen.map Prod.fst).Nodup → (∀ x ∈ gen.map Prod.fst, x ∈ seen) →
      ((bfsFuel pE sE fuel q seen gen).map Prod.fst).Nodup := by
  intro fuel
  induction fuel with
  | zero =>
    intro q seen gen h1 _
    cases q <;> exact h1
  | succ n ih =>
    intro q seen gen h1 h2
    match q with
    | [] => exact h1
    | (id, g) :: rest =>
      rw [bfsFuel_cons]
      by_cases hc : seen.contains id = true
      · rw [if_pos hc]
        exact ih rest seen gen h1 h2
      · rw [if_neg hc]
        apply ih
        · rw [List.map_append, List.nodup_append]
          refine ⟨h1, List.nodup_singleton _, ?_⟩
          intro a ha hb
          have hai : a = id := by simpa using hb
          subst hai
          exact hc (contains_iff.mpr (h2 a ha))
        · intro x hx
          rw [List.map_append] at hx
          rcases List.mem_append.mp hx with hx | hx
          · exact List.mem_cons_of_mem _ (h2 x hx)
          · have hxi : x = id := by simpa using hx
            subst hxi
            exact List.mem_cons_self _ _

/-- C9: the generation-assignment worklist terminates on every input —
the fuelled embedding of the `while` loop is already stable at the fuel
the engine passes, for arbitrary extra fuel — and each identifier is
assigned a generation at most once (the map keys are duplicate-free,
first assignment wins). -/
theorem c9_bfs_terminates_assigns_once (members : List Member) (extra : Nat) :
    bfsGen members
      = bfsFuel (buildPEdges members) (buildSEdges members)
          (bfsBound (buildPEdges members) (buildSEdges members)
            (initQueue (rootsOf members)) [] + extra)
          (initQueue (rootsOf members)) [] []
      ∧ ((bfsGen members).map Prod.fst).Nodup := by
  constructor
  · unfold bfsGen
    exact bfsFuel_stable (buildPEdges members) (buildSEdges members)
      (initQueue (rootsOf members)) [] [] extra
  · unfold bfsGen
    exact bfsFuel_keys_nodup (buildPEdges members) (buildSEdges members)
      (bfsBound (buildPEdges members) (buildSEdges members)
        (initQueue (rootsOf members)) [])
      (initQueue (rootsOf members)) [] [] (by simp) (by simp)

/-- Stable insertion produces a permutation. -/
theorem insSorted_perm (le : α → α → Bool) (x : α) :
    ∀ l : List α, List.Perm (insSorted le x l) (x :: l) := by
  intro l
  induction l with
  | nil => exact List.Perm.refl _
  | cons y ys ih =>
    rw [show insSorted le x (y :: ys)
        = if le y x then y :: insSorted le x ys else x :: y :: ys from rfl]
    by_cases h : le y x = true
    · rw [if_pos h]
      exact (ih.cons y).trans (List.Perm.swap x y ys)
    · rw [if_neg h]

/-- The fold of stable insertions permutes its inputs. -/
theorem stableSortAux_perm (le : α → α → Bool) :
    ∀ (l acc : List α),
      List.Perm (l.foldl (fun acc x => insSorted le x acc) acc) (acc ++ l) := by
  intro l
  induction l with
  | nil => intro acc; simp
  | cons x rest ih =>
    intro acc
    rw [List.foldl_cons]
    refine (ih (insSorted le x acc)).trans ?_
    refine ((insSorted_perm le x acc).append_right rest).trans ?_
    rw [show (x :: acc) ++ rest = x :: (acc ++ rest) from rfl]
    exact List.perm_middle.symm

/-- The embedded stable sort is a permutation. -/
theorem stableSort_perm (le : α → α → Bool) (l : List α) :
    List.Perm (stableSort le l) l := by
  have h := stableSortAux_perm le l []
  simpa [stableSort] using h

/-- The id-indexed map lookup succeeds exactly on the stored keys. -/
theorem mapGet_isSome_iff (gen : List (String × Int)) (k : String) :
    (mapGet gen k).isSome = true ↔ k ∈ gen.map Prod.fst := by
  unfold mapGet
  constructor
  · intro h
    have h2 : (gen.reverse.find? fun p => p.1 == k).isSome = true := by
      cases hf : gen.reverse.find? fun p => p.1 == k
      · rw [hf] at h
        cases h
      · rfl
    rcases List.find?_isSome.mp h2 with ⟨x, hx, hp⟩
    exact List.mem_map.mpr ⟨x, List.mem_reverse.mp hx, by simpa using hp⟩
  · intro h
    rcases List.mem_map.mp h with ⟨x, hx, hid⟩
    have h2 : (gen.reverse.find? fun p => p.1 == k).isSome = true :=
      List.find?_isSome.mpr ⟨x, List.mem_reverse.mpr hx, by simpa using hid⟩
    cases hf : gen.reverse.find? fun p => p.1 == k
    · rw [hf] at h2
      cases h2
    · simp [hf]

/-- A left fold of `min` lies below its seed and every element. -/
theorem foldl_min_le : ∀ (xs : List Int) (a : Int),
    xs.foldl min a ≤ a ∧ ∀ x ∈ xs, xs.foldl min a ≤ x := by
  intro xs
  induction xs with
  | nil => intro a; exact ⟨le_refl a, by simp⟩
  | cons y ys ih =>
    intro a
    rw [List.foldl_cons]
    obtain ⟨h1, h2⟩ := ih (min a y)
    refine ⟨le_trans h1 (min_le_left a y), ?_⟩
    intro x hx
    rcases List.mem_cons.mp hx with rfl | hx
    · exact le_trans h1 (min_le_right a x)
    · exact h2 x hx

/-- A left fold of `max` lies above its seed and every element. -/
theorem le_foldl_max : ∀ (xs : List Int) (a : Int),
    a ≤ xs.foldl max a ∧ ∀ x ∈ xs, x ≤ xs.foldl max a := by
  intro xs
  induction xs with
  | nil => intro a; exact ⟨le_refl a, by simp⟩
  | cons y ys ih =>
    intro a
    rw [List.foldl_cons]
    obtain ⟨h1, h2⟩ := ih (max a y)
    refine ⟨le_trans (le_max_left a y) h1, ?_⟩
    intro x hx
    rcases List.mem_cons.mp hx with rfl | hx
    · exact le_trans (le_max_right a x) h1
    · exact h2 x hx

/-- The list minimum bounds every element from below. -/
theorem listMin_le (l : List Int) : ∀ x ∈ l, listMin l ≤ x := by
  intro x hx
  match l, hx with
  | y :: ys, hx =>
    rcases List.mem_cons.mp hx with rfl | hx
    · exact (foldl_min_le ys x).1
    · exact (foldl_min_le ys y).2 x hx

/-- The list maximum bounds every element from above. -/
theorem le_listMax (l : List Int) : ∀ x ∈ l, x ≤ listMax l := by
  intro x hx
  match l, hx with
  | y :: ys, hx =>
    rcases List.mem_cons.mp hx with rfl | hx
    · exact (le_foldl_max ys x).1
    · exact (le_foldl_max ys y).2 x hx

/-- Every key the BFS produces comes from the initial worklist or an
edge endpoint. -/
theorem bfsFuel_keys_subset (pE sE : List Edge) (S : List String)
    (hend : ∀ x ∈ endIds pE sE, x ∈ S) :
    ∀ (fuel : Nat) (q : List (String × Int)) (seen : List String)
      (gen : List (String × Int)),
      (∀ x ∈ q.map Prod.fst, x ∈ S) → (∀ x ∈ gen.map Prod.fst, x ∈ S) →
      ∀ x ∈ (bfsFuel pE sE fuel q seen gen).map Prod.fst, x ∈ S := by
  intro fuel
  induction fuel with
  | zero =>
    intro q seen gen _ hgen
    cases q <;> exact hgen
  | succ n ih =>
    intro q seen gen hq hgen
    match q with
    | [] => exact hgen
    | (id, g) :: rest =>
      rw [bfsFuel_cons]
      by_cases hc : seen.contains id = true
      · rw [if_pos hc]
        exact ih rest seen gen (fun x hx => hq x (List.mem_cons_of_mem _ hx)) hgen
      · rw [if_neg hc]
        apply ih
        · intro x hx
          rw [List.map_append] at hx
          rcases List.mem_append.mp hx with hx | hx
          · exact hq x (List.mem_cons_of_mem _ hx)
          · exact hend x (expand_fst_mem_endIds pE sE (id :: seen) id g x hx)
        · intro x hx
          rw [List.map_append] at hx
          rcases List.mem_append.mp hx with hx | hx
          · exact hgen x hx
          · have hxi : x = id := by simpa using hx
            subst hxi
            exact hq x (List.mem_cons_self _ _)

/-- Reading the reference well-formedness flag as resolution facts. -/
theorem resolved_spec {members : List Member} (hres : refsResolvedB members = true) :
    ∀ m ∈ members,
      (∀ f, m.fatherId = some f → f ∈ members.map Member.id)
      ∧ (∀ mo, m.motherId = some mo → mo ∈ members.map Member.id)
      ∧ (∀ s ∈ m.spouseIds, s ∈ members.map Member.id)
      ∧ (∀ c ∈ m.childrenIds, c ∈ members.map Member.id) := by
  intro m hm
  simp only [refsResolvedB] at hres
  rw [List.all_eq_true] at hres
  have h := hres m hm
  simp only [Bool.and_eq_true] at h
  obtain ⟨⟨⟨h1, h2⟩, h3⟩, h4⟩ := h
  refine ⟨?_, ?_, ?_, ?_⟩
  · intro f hf
    rw [hf] at h1
    exact contains_iff.mp (by simpa using h1)
  · intro mo hmo
    rw [hmo] at h2
    exact contains_iff.mp (by simpa using h2)
  · intro s hs
    rw [List.all_eq_true] at h3
    exact contains_iff.mp (h3 s hs)
  · intro c hc
    rw [List.all_eq_true] at h4
    exact contains_iff.mp (h4 c hc)

/-- First endpoints of parent edges resolve when references do. -/
theorem pEdge_fst_mem (members : List Member) (hres : refsResolvedB members = true)
    {e : Edge} (he : e ∈ buildPEdges members) : e.1 ∈ members.map Member.id := by
  rcases List.mem_flatMap.mp he with ⟨m, hm, hme⟩
  obtain ⟨hfa, hmo, _, _⟩ := resolved_spec hres m hm
  rcases mem_memberEdges hme with ⟨h1, _⟩ | ⟨f, hf, hef⟩ | ⟨mo, hmof, hemo⟩
  · rw [h1]
    exact List.mem_map.mpr ⟨m, hm, rfl⟩
  · rw [hef]
    exact hfa f hf
  · rw [hemo]
    exact hmo mo hmof

/-- Second endpoints of parent edges resolve when references do. -/
theorem pEdge_snd_mem (members : List Member) (hres : refsResolvedB members = true)
    {e : Edge} (he : e ∈ buildPEdges members) : e.2 ∈ members.map Member.id := by
  rcases List.mem_flatMap.mp he with ⟨m, hm, hme⟩
  obtain ⟨_, _, _, hch⟩ := resolved_spec hres m hm
  rcases mem_memberEdges hme with ⟨_, h2⟩ | ⟨f, _, hef⟩ | ⟨mo, _, hemo⟩
  · exact hch e.2 h2
  · rw [hef]
    exact List.mem_map.mpr ⟨m, hm, rfl⟩
  · rw [hemo]
    exact List.mem_map.mpr ⟨m, hm, rfl⟩

/-- Endpoints of spouse edges resolve when references do. -/
theorem sEdge_mem (members : List Member) (hres : refsResolvedB members = true)
    {e : Edge} (he : e ∈ buildSEdges members) :
    e.1 ∈ members.map Member.id ∧ e.2 ∈ members.map Member.id := by
  rcases List.mem_flatMap.mp he with ⟨m, hm, hme⟩
  obtain ⟨_, _, hsp, _⟩ := resolved_spec hres m hm
  obtain ⟨h1, h2, _⟩ := mem_spouseEdgesOf hme
  exact ⟨by rw [h1]; exact List.mem_map.mpr ⟨m, hm, rfl⟩, hsp e.2 h2⟩

/-- With resolved references every edge endpoint is a member id. -/
theorem endIds_subset_of_resolved (members : List Member)
    (hres : refsResolvedB members = true) :
    ∀ x ∈ endIds (buildPEdges members) (buildSEdges members),
      x ∈ members.map Member.id := by
  intro x hx
  unfold endIds at hx
  rcases List.mem_append.mp hx with hx | hx
  · rcases List.mem_append.mp hx with hx | hx
    · rcases List.mem_append.mp hx with hx | hx
      · rcases List.mem_map.mp hx with ⟨e, he, hex⟩
        rw [← hex]
        exact pEdge_fst_mem members hres he
      · rcases List.mem_map.mp hx with ⟨e, he, hex⟩
        rw [← hex]
        exact pEdge_snd_mem members hres he
    · rcases List.mem_map.mp hx with ⟨e, he, hex⟩
      rw [← hex]
      exact (sEdge_mem members hres he).1
  · rcases List.mem_map.mp hx with ⟨e, he, hex⟩
    rw [← hex]
    exact (sEdge_mem members hres he).2

/-- The fallback root is a member id of a non-empty collection. -/
theorem pickOldest_mem (members : List Member) (hne : members ≠ []) :
    pickOldest members ∈ members.map Member.id := by
  unfold pickOldest
  have hperm := stableSort_perm (fun a b => decide (dobKey a ≤ dobKey b)) members
  cases hs : stableSort (fun a b => decide (dobKey a ≤ dobKey b)) members with
  | nil =>
    rw [hs] at hperm
    exact absurd (hperm.symm.eq_nil) hne
  | cons m rest =>
    rw [hs] at hperm
    exact List.mem_map.mpr ⟨m, hperm.mem_iff.mp (List.mem_cons_self _ _), rfl⟩

/-- Every selected root is a member id. -/
theorem rootsOf_subset (members : List Member) (hne : members ≠ []) :
    ∀ x ∈ rootsOf members, x ∈ members.map Member.id := by
  intro x hx
  unfold rootsOf at hx
  by_cases hc : (rootCandidates members (buildPEdges members)).isEmpty = true
  · rw [if_pos hc] at hx
    have hxe : x = pickOldest members := by simpa using hx
    subst hxe
    exact pickOldest_mem members hne
  · rw [if_neg hc] at hx
    exact List.mem_of_mem_filter hx

/-- The fill loop keeps the key list duplicate-free. -/
theorem fillFold_nodup_keys (members0 : List Member) (fb : String) (rootG : Int) :
    ∀ (ms : List Member) (acc : List (String × Int)),
      (acc.map Prod.fst).Nodup →
      ((ms.foldl (fillStep members0 fb rootG) acc).map Prod.fst).Nodup := by
  intro ms
  induction ms with
  | nil => intro acc h; exact h
  | cons m rest ih =>
    intro acc h
    rw [List.foldl_cons]
    apply ih
    unfold fillStep
    by_cases hc : (mapGet acc m.id).isSome = true
    · rw [if_pos hc]
      exact h
    · rw [if_neg hc]
      rw [List.map_append, List.nodup_append]
      refine ⟨h, List.nodup_singleton _, ?_⟩
      intro a ha hb
      have hab : a = m.id := by simpa using hb
      subst hab
      exact hc ((mapGet_isSome_iff acc m.id).mpr ha)

/-- After the fill loop the keys are the earlier keys plus the
processed member ids. -/
theorem fillFold_mem_keys (members0 : List Member) (fb : String) (rootG : Int) :
    ∀ (ms : List Member) (acc : List (String × Int)) (x : String),
      x ∈ (ms.foldl (fillStep members0 fb rootG) acc).map Prod.fst
        ↔ x ∈ acc.map Prod.fst ∨ x ∈ ms.map Member.id := by
  intro ms
  induction ms with
  | nil => intro acc x; simp
  | cons m rest ih =>
    intro acc x
    rw [List.foldl_cons, ih]
    unfold fillStep
    by_cases hc : (mapGet acc m.id).isSome = true
    · rw [if_pos hc]
      have hmid : m.id ∈ acc.map Prod.fst := (mapGet_isSome_iff acc m.id).mp hc
      simp only [List.map_cons, List.mem_cons]
      constructor
      · rintro (h | h)
        · exact Or.inl h
        · exact Or.inr (Or.inr h)
      · rintro (h | h | h)
        · exact Or.inl h
        · exact Or.inl (by rw [h]; exact hmid)
        · exact Or.inr h
    · rw [if_neg hc]
      simp only [List.map_append, List.mem_append, List.map_cons, List.mem_cons]
      constructor
      · rintro ((h | h) | h)
        · exact Or.inl h
        · have hxm : x = m.id := by simpa using h
          exact Or.inr (Or.inl hxm)
        · exact Or.inr (Or.inr h)
      · rintro (h | h | h)
        · exact Or.inl (Or.inl h)
        · refine Or.inl (Or.inr ?_)
          simp [h]
        · exact Or.inr h

/-- Occurrences in a flattened list of rows, summed row by row. -/
theorem count_flatten_str (a : String) :
    ∀ L : List (List String), L.flatten.count a = (L.map fun l => l.count a).sum := by
  intro L
  induction L with
  | nil => rfl
  | cons l rest ih =>
    rw [List.flatten_cons, List.count_append, ih, List.map_cons, List.sum_cons]

/-- Occurrences of a key among the first components. -/
theorem count_map_fst (a : String) :
    ∀ gen : List (String × Int),
      (gen.map Prod.fst).count a = gen.countP fun p => p.1 == a := by
  intro gen
  induction gen with
  | nil => rfl
  | cons p rest ih =>
    rw [List.map_cons, List.count_cons, List.countP_cons, ih]

/-- Occurrences of a key among the first components of a filtered
list. -/
theorem count_fst_filter (a : String) (c : (String × Int) → Bool) :
    ∀ gen : List (String × Int),
      ((gen.filter c).map Prod.fst).count a
        = gen.countP fun p => c p && p.1 == a := by
  intro gen
  induction gen with
  | nil => rfl
  | cons p rest ih =>
    rw [List.countP_cons]
    by_cases hc : c p = true
    · rw [List.filter_cons_of_pos hc, List.map_cons, List.count_cons, ih, hc,
        Bool.true_and]
    · rw [List.filter_cons_of_neg (by simpa using hc), ih,
        show c p = false from by simpa using hc, Bool.false_and]
      simp

/-- Sum of a pointwise addition of maps. -/
theorem sum_map_add {α : Type} (l : List α) (f g : α → Nat) :
    (l.map fun x => f x + g x).sum = (l.map f).sum + (l.map g).sum := by
  induction l with
  | nil => rfl
  | cons x rest ih =>
    simp only [List.map_cons, List.sum_cons, ih]
    omega

/-- Summing the indicator of one index over a covering range gives
one. -/
theorem sum_indicator_range (i0 : Nat) :
    ∀ n : Nat, i0 < n →
      ((List.range n).map fun i => if i0 = i then 1 else 0).sum = 1 := by
  intro n
  induction n with
  | zero => intro h; exact absurd h (Nat.not_lt_zero _)
  | succ k ih =>
    intro h
    rw [List.range_succ, List.map_append, List.sum_append]
    by_cases hk : i0 = k
    · have hz : ((List.range k).map fun i => if i0 = i then 1 else 0).sum = 0 := by
        apply List.sum_eq_zero
        intro x hx
        rcases List.mem_map.mp hx with ⟨i, hi, hxe⟩
        have hne : i0 ≠ i := by
          have := List.mem_range.mp hi
          omega
        rw [← hxe, if_neg hne]
      rw [hz]
      simp [hk]
    · have hlt : i0 < k := by omega
      rw [ih hlt]
      simp [hk]

/-- Partition identity of the row filters: every entry lands in exactly
one row of the covering range, so the per-row key counts sum to the
total key count. -/
theorem rows_count (minG : Int) (n : Nat) (a : String) :
    ∀ gen : List (String × Int),
      (∀ p ∈ gen, minG ≤ p.2 ∧ (p.2 - minG).toNat < n) →
      ((List.range n).map fun i =>
        gen.countP fun p => (p.2 - minG == Int.ofNat i) && p.1 == a).sum
        = gen.countP fun p => p.1 == a := by
  intro gen
  induction gen with
  | nil =>
    intro _
    rw [List.countP_nil]
    apply List.sum_eq_zero
    intro x hx
    rcases List.mem_map.mp hx with ⟨i, _, hxe⟩
    rw [← hxe, List.countP_nil]
  | cons p rest ih =>
    intro hb
    have hbp := hb p (List.mem_cons_self _ _)
    have hbr : ∀ q ∈ rest, minG ≤ q.2 ∧ (q.2 - minG).toNat < n := fun q hq =>
      hb q (List.mem_cons_of_mem _ hq)
    rw [List.countP_cons]
    have hmap : ((List.range n).map fun i =>
        (p :: rest).countP fun q => (q.2 - minG == Int.ofNat i) && q.1 == a)
        = (List.range n).map fun i =>
          (rest.countP fun q => (q.2 - minG == Int.ofNat i) && q.1 == a)
          + if ((p.2 - minG == Int.ofNat i) && p.1 == a) = true then 1 else 0 := by
      apply List.map_congr_left
      intro i _
      rw [List.countP_cons]
    rw [hmap, sum_map_add, ih hbr]
    by_cases hpa : (p.1 == a) = true
    · have h2 : ((List.range n).map fun i =>
          if ((p.2 - minG == Int.ofNat i) && p.1 == a) = true then 1 else 0)
          = (List.range n).map fun i => if (p.2 - minG).toNat = i then 1 else 0 := by
        apply List.map_congr_left
        intro i _
        rw [hpa, Bool.and_true]
        by_cases hii : (p.2 - minG).toNat = i
        · have hbe : (p.2 - minG == Int.ofNat i) = true := by
            rw [beq_iff_eq, Int.ofNat_eq_natCast]
            omega
          rw [if_pos hbe, if_pos hii]
        · have hbe : ¬ (p.2 - minG == Int.ofNat i) = true := by
            rw [beq_iff_eq, Int.ofNat_eq_natCast]
            omega
          rw [if_neg hbe, if_neg hii]
      rw [h2, sum_indicator_range _ n hbp.2, hpa]
      simp
    · have h2 : ((List.range n).map fun i =>
          if ((p.2 - minG == Int.ofNat i) && p.1 == a) = true then 1 else 0)
          = (List.range n).map fun i => (0 : Nat) := by
        apply List.map_congr_left
        intro i _
        rw [show (p.1 == a) = false from by simpa using hpa, Bool.and_false]
        rfl
      have hz : ((List.range n).map fun i => (0 : Nat)).sum = 0 := by
        apply List.sum_eq_zero
        intro x hx
        rcases List.mem_map.mp hx with ⟨_, _, hxe⟩
        exact hxe.symm
      rw [h2, hz, show (p.1 == a) = false from by simpa using hpa]
      simp

/-- The flattened rows are a permutation of the generation-map keys. -/
theorem buildLevels_flatten_perm (gen : List (String × Int)) :
    List.Perm (buildLevels gen).flatten (gen.map Prod.fst) := by
  rw [List.perm_iff_count]
  intro a
  have hbounds : ∀ p ∈ gen, listMin (gen.map Prod.snd) ≤ p.2
      ∧ (p.2 - listMin (gen.map Prod.snd)).toNat
        < (listMax (gen.map Prod.snd) - listMin (gen.map Prod.snd) + 1).toNat := by
    intro p hp
    have h1 := listMin_le (gen.map Prod.snd) p.2 (List.mem_map.mpr ⟨p, hp, rfl⟩)
    have h2 := le_listMax (gen.map Prod.snd) p.2 (List.mem_map.mpr ⟨p, hp, rfl⟩)
    omega
  simp only [buildLevels]
  rw [count_flatten_str, List.map_map]
  have hcomp : ((fun l : List String => l.count a) ∘ fun i =>
        (gen.filter fun p => p.2 - listMin (gen.map Prod.snd) == Int.ofNat i).map Prod.fst)
      = fun i => gen.countP fun p =>
        (p.2 - listMin (gen.map Prod.snd) == Int.ofNat i) && p.1 == a := by
    funext i
    exact count_fst_filter a _ gen
  rw [hcomp,
    rows_count (listMin (gen.map Prod.snd))
      ((listMax (gen.map Prod.snd) - listMin (gen.map Prod.snd) + 1).toNat) a gen hbounds,
    count_map_fst]

/-- Adding an id to its token bucket appends one occurrence of the id
to the bucket contents. -/
theorem addToFam_flat_perm (t id : String) :
    ∀ fams : List (String × List String),
      List.Perm ((addToFam t id fams).flatMap Prod.snd)
        ((fams.flatMap Prod.snd) ++ [id]) := by
  intro fams
  induction fams with
  | nil =>
    simp [addToFam]
  | cons kv rest ih =>
    obtain ⟨k, ids⟩ := kv
    by_cases hk : (k == t) = true
    · rw [show addToFam t id ((k, ids) :: rest) = (k, ids ++ [id]) :: rest from by
        simp [addToFam, hk]]
      simp only [List.flatMap_cons]
      rw [List.append_assoc, List.append_assoc]
      exact List.Perm.append_left ids List.perm_append_comm
    · rw [show addToFam t id ((k, ids) :: rest) = (k, ids) :: addToFam t id rest from by
        simp [addToFam, hk]]
      simp only [List.flatMap_cons]
      rw [List.append_assoc]
      exact List.Perm.append_left ids ih

/-- The grouping fold only redistributes the row: the bucket contents
are a permutation of the seed contents plus the row. -/
theorem groupTokens_fold_perm (members : List Member) (pE : List Edge) :
    ∀ (row : List String) (fams : List (String × List String)),
      List.Perm (((row.foldl (fun fams id => addToFam (tokenFor members pE id) id fams)
        fams)).flatMap Prod.snd) ((fams.flatMap Prod.snd) ++ row) := by
  intro row
  induction row with
  | nil =>
    intro fams
    simp
  | cons id rest ih =>
    intro fams
    rw [List.foldl_cons]
    refine (ih (addToFam (tokenFor members pE id) id fams)).trans ?_
    refine ((addToFam_flat_perm (tokenFor members pE id) id fams).append_right rest).trans ?_
    rw [List.append_assoc]
    exact List.Perm.refl _

/-- Sorting inside each bucket permutes the concatenated contents. -/
theorem sortInner_flat_perm (members : List Member) :
    ∀ fams : List (String × List String),
      List.Perm ((fams.map fun p => (p.1, stableSort (bucketLE members) p.2)).flatMap
        Prod.snd) (fams.flatMap Prod.snd) := by
  intro fams
  induction fams with
  | nil => exact List.Perm.refl _
  | cons kv rest ih =>
    simp only [List.map_cons, List.flatMap_cons]
    exact (stableSort_perm (bucketLE members) kv.2).append ih

/-- The row reordering is a permutation of the row. -/
theorem orderRow_perm (members : List Member) (pE : List Edge) (row : List String) :
    List.Perm (orderRow members pE row) row := by
  simp only [orderRow]
  refine (List.Perm.flatMap_right Prod.snd
    (stableSort_perm (fun A B => strLe A.1 B.1) _)).trans ?_
  refine (sortInner_flat_perm members (groupTokens members pE row)).trans ?_
  have h := groupTokens_fold_perm members pE row []
  simpa [groupTokens] using h

/-- Reordering each row keeps the flattened content a permutation. -/
theorem flatten_map_orderRow_perm (members : List Member) (pE : List Edge) :
    ∀ L : List (List String),
      List.Perm ((L.map (orderRow members pE)).flatten) L.flatten := by
  intro L
  induction L with
  | nil => exact List.Perm.refl _
  | cons l rest ih =>
    simp only [List.map_cons, List.flatten_cons]
    exact (orderRow_perm members pE l).append ih

/-- C1, amended: on a non-empty collection with unique identifiers in
which every father/mother/spouse/children reference resolves within
the collection, the rows of the Layout Result partition the member
identifiers: the flattened rows are a permutation of the identifier
list.  (The resolution hypothesis is forced by the counterexample: a
dangling reference puts a non-member identifier into a row.) -/
theorem c1_rows_partition_resolved (members : List Member) (hne : members ≠ [])
    (hnodup : (members.map Member.id).Nodup) (hres : refsResolvedB members = true) :
    List.Perm (buildTreeLayout members).levels.flatten (members.map Member.id) := by
  have hnem : members.isEmpty = false := by
    cases members
    · exact absurd rfl hne
    · rfl
  have hlv : (buildTreeLayout members).levels
      = (buildLevels (fillUnassigned members (pickOldest members) (bfsGen members))).map
        (orderRow members (buildPEdges members)) := by
    simp only [buildTreeLayout, hnem, Bool.false_eq_true, if_false]
  rw [hlv]
  refine (flatten_map_orderRow_perm members (buildPEdges members) _).trans ?_
  refine (buildLevels_flatten_perm _).trans ?_
  have hgen0_nodup : ((bfsGen members).map Prod.fst).Nodup := by
    unfold bfsGen
    exact bfsFuel_keys_nodup (buildPEdges members) (buildSEdges members) _ _ _ _
      (by simp) (by simp)
  have hgen0_sub : ∀ y ∈ (bfsGen members).map Prod.fst, y ∈ members.map Member.id := by
    unfold bfsGen
    apply bfsFuel_keys_subset (buildPEdges members) (buildSEdges members)
      (members.map Member.id) (endIds_subset_of_resolved members hres)
    · intro x hx
      have hx2 : x ∈ rootsOf members := by
        simpa [initQueue, List.map_map, Function.comp] using hx
      exact rootsOf_subset members hne x hx2
    · intro x hx
      simp at hx
  have hfill_nodup : ((fillUnassigned members (pickOldest members)
      (bfsGen members)).map Prod.fst).Nodup := by
    simp only [fillUnassigned]
    exact fillFold_nodup_keys members (pickOldest members) _ members (bfsGen members)
      hgen0_nodup
  refine (List.perm_ext_iff_of_nodup hfill_nodup hnodup).mpr ?_
  intro x
  constructor
  · intro hx
    have hx2 := (fillFold_mem_keys members (pickOldest members)
      ((mapGet (bfsGen members) (pickOldest members)).getD 0) members (bfsGen members)
      x).mp (by simpa [fillUnassigned] using hx)
    rcases hx2 with hx2 | hx2
    · exact hgen0_sub x hx2
    · exact hx2
  · intro hx
    have hx2 := (fillFold_mem_keys members (pickOldest members)
      ((mapGet (bfsGen members) (pickOldest members)).getD 0) members (bfsGen members)
      x).mpr (Or.inr hx)
    simpa [fillUnassigned] using hx2

/-- C1, witness: on the Lee scenario collection the flattened rows are
a permutation of the member identifiers. -/
theorem c1_rows_partition_resolved_witness :
    List.Perm (buildTreeLayout scenarioLee).levels.flatten
      (scenarioLee.map Member.id) :=
  c1_rows_partition_resolved scenarioLee (by decide) (by decide) (by decide)

/-- C10: there is an input — a root plus an unreachable parent cycle
resolved at relationship offset +3 — whose returned rows include empty
rows for the unpopulated intermediate generations. -/
theorem c10_empty_row_exists :
    (buildTreeLayout gappedTrio).levels = [["a"], [], [], ["c", "b"]]
      ∧ [] ∈ (buildTreeLayout gappedTrio).levels := by
  decide

end FamilyTree
